import Mathlib

/-!
Shallow embedding of the Riemannian-manifold operation layer and the
rank-margin loss engine of the `riemann` package, together with proofs of
the specified properties.

Conventions of the embedding:
* Tensor values are modelled exactly: `ℚ` where the computation is rational
  arithmetic, `ℝ` where the source uses transcendental functions
  (`acos`, `cos`, `sin`, `sqrt`, `log`).
* A batch of vectors is a function `Fin b → Fin n → ℝ` (row index, then
  coordinate); a single point is `Fin n → ℝ`.
* `torch.clamp(x, lo, hi)` is `clampR lo hi x = max lo (min hi x)`;
  `torch.clamp(x, min=c)` is `max x c`; `relu x` is `max x 0`.
* External linear-algebra kernels (`torch.symeig`, `torch.inverse`) are
  modelled by Mathlib's matrix inverse and by quantifying over a valid
  eigendecomposition (`IsSymeig`).
-/

namespace Sphere

/-- Constant `EPSILON = 1e-4` from `riemann/manifolds/sphere.py`. -/
noncomputable def EPSILON : ℝ := 1 / 10000

/-- Model of `torch.clamp(x, lo, hi)`. -/
noncomputable def clampR (lo hi x : ℝ) : ℝ := max lo (min hi x)

namespace GradClippedACos

/-- Forward pass of `GradClippedACos`: clamp the input to `[-1, 1]`, then
apply `acos` (`torch.acos` on the clamped value). -/
noncomputable def forward (x : ℝ) : ℝ := Real.arccos (clampR (-1) 1 x)

/-- The tensor saved for the backward pass: the forward-clamped input
(`ctx.save_for_backward(x)` runs after `x = x.clamp(-1, 1)`). -/
noncomputable def savedInput (x : ℝ) : ℝ := clampR (-1) 1 x

/-- Backward pass of `GradClippedACos`: re-clamp the saved input to the
tighter interval `[-1 + EPSILON, 1 - EPSILON]` and return
`- grad_output / (1 - x^2) ** 0.5`. -/
noncomputable def backward (saved gradOutput : ℝ) : ℝ :=
  -gradOutput / Real.sqrt (1 - (clampR (-1 + EPSILON) (1 - EPSILON) saved) ^ 2)

end GradClippedACos

end Sphere

namespace Sphere

lemma clampR_le_hi {lo hi : ℝ} (h : lo ≤ hi) (x : ℝ) : clampR lo hi x ≤ hi := by
  unfold clampR
  exact max_le h (min_le_left _ _)

lemma lo_le_clampR (lo hi x : ℝ) : lo ≤ clampR lo hi x := le_max_left _ _

lemma backward_clamped_sq_le (s : ℝ) :
    (clampR (-1 + EPSILON) (1 - EPSILON) s) ^ 2 ≤ (1 - EPSILON) ^ 2 := by
  have hle : (-1 + EPSILON : ℝ) ≤ 1 - EPSILON := by norm_num [EPSILON]
  have h1 : clampR (-1 + EPSILON) (1 - EPSILON) s ≤ 1 - EPSILON :=
    clampR_le_hi hle s
  have h2 : -(1 - EPSILON) ≤ clampR (-1 + EPSILON) (1 - EPSILON) s := by
    have := lo_le_clampR (-1 + EPSILON) (1 - EPSILON) s
    linarith
  have habs : |clampR (-1 + EPSILON) (1 - EPSILON) s| ≤ 1 - EPSILON :=
    abs_le.mpr ⟨h2, h1⟩
  calc (clampR (-1 + EPSILON) (1 - EPSILON) s) ^ 2
      = |clampR (-1 + EPSILON) (1 - EPSILON) s| ^ 2 := (sq_abs _).symm
    _ ≤ (1 - EPSILON) ^ 2 := by
        have h0 : (0 : ℝ) ≤ 1 - EPSILON := by norm_num [EPSILON]
        exact pow_le_pow_left₀ (abs_nonneg _) habs 2

end Sphere

/-- Claim C1. `GradClippedACos` clamps the forward input to `[-1, 1]` before
`acos` and re-clamps the saved input to `[-1 + EPSILON, 1 - EPSILON]`
(EPSILON = 1e-4) before dividing by `sqrt (1 - x^2)` in the backward pass;
consequently, for every input `x` and every unit upstream gradient `g`, the
magnitude of the produced gradient is at most `1 / sqrt EPSILON`. -/
theorem gradClippedACos_gradient_bound (x g : ℝ) (hg : |g| = 1) :
    |Sphere.GradClippedACos.backward (Sphere.GradClippedACos.savedInput x) g| ≤
      1 / Real.sqrt Sphere.EPSILON := by
  set s := Sphere.GradClippedACos.savedInput x with hs
  set c := Sphere.clampR (-1 + Sphere.EPSILON) (1 - Sphere.EPSILON) s with hc
  have hsq : c ^ 2 ≤ (1 - Sphere.EPSILON) ^ 2 := Sphere.backward_clamped_sq_le s
  have heps : (0 : ℝ) < Sphere.EPSILON := by norm_num [Sphere.EPSILON]
  have hlower : Sphere.EPSILON ≤ 1 - c ^ 2 := by
    have : (1 - Sphere.EPSILON) ^ 2 = 1 - 2 * Sphere.EPSILON + Sphere.EPSILON ^ 2 := by ring
    have heps1 : Sphere.EPSILON ≤ 1 := by norm_num [Sphere.EPSILON]
    nlinarith
  have hpos : (0 : ℝ) < 1 - c ^ 2 := lt_of_lt_of_le heps hlower
  have hsqrt_le : Real.sqrt Sphere.EPSILON ≤ Real.sqrt (1 - c ^ 2) :=
    Real.sqrt_le_sqrt hlower
  have hsqrt_pos : (0 : ℝ) < Real.sqrt Sphere.EPSILON := Real.sqrt_pos.mpr heps
  have habs : |Sphere.GradClippedACos.backward s g| = |g| / Real.sqrt (1 - c ^ 2) := by
    unfold Sphere.GradClippedACos.backward
    rw [← hc, abs_div, abs_neg, abs_of_nonneg (Real.sqrt_nonneg _)]
  rw [habs, hg]
  exact one_div_le_one_div_of_le hsqrt_pos hsqrt_le

/-- Witness for C1 at `x = 0`, `g = 1`. -/
theorem gradClippedACos_gradient_bound_witness :
    |Sphere.GradClippedACos.backward (Sphere.GradClippedACos.savedInput 0) 1| ≤
      1 / Real.sqrt Sphere.EPSILON :=
  gradClippedACos_gradient_bound 0 1 (by norm_num)

namespace MarginLoss

/-- Model of `torch.nn.functional.relu` on an exact scalar. -/
def relu (q : ℚ) : ℚ := max q 0

/-- Insert index `i` into an index list that is already sorted by the key
`t`, keeping earlier-inserted equal keys first (stable ascending order, the
order produced by `torch.argsort(..., dim=-1)`). -/
def insertSorted {k : ℕ} (t : Fin k → ℚ) (i : Fin k) : List (Fin k) → List (Fin k)
  | [] => [i]
  | j :: js => if t i < t j then i :: j :: js else j :: insertSorted t i js

/-- Model of `train_distances.argsort(dim=-1)` for one batch row, as the list of
indices in ascending order of `t`. -/
def argsortList (k : ℕ) (t : Fin k → ℚ) : List (Fin k) :=
  (List.finRange k).foldl (fun acc i => insertSorted t i acc) []

lemma length_insertSorted {k : ℕ} (t : Fin k → ℚ) (i : Fin k) :
    ∀ l : List (Fin k), (insertSorted t i l).length = l.length + 1 := by
  intro l
  induction l with
  | nil => rfl
  | cons j js ih =>
      unfold insertSorted
      by_cases h : t i < t j
      · simp [h]
      · simp [h, ih]

lemma length_argsortList (k : ℕ) (t : Fin k → ℚ) :
    (argsortList k t).length = k := by
  have key : ∀ (l : List (Fin k)) (init : List (Fin k)),
      (l.foldl (fun acc i => insertSorted t i acc) init).length =
        init.length + l.length := by
    intro l
    induction l with
    | nil => intro init; simp
    | cons j js ih =>
        intro init
        rw [List.foldl_cons, ih, length_insertSorted]
        simp only [List.length_cons]
        omega
  unfold argsortList
  rw [key]
  simp

/-- The sorting permutation: `argsort k t p` is the index (into the original
neighbor axis) stored at sorted position `p`. -/
def argsort {k : ℕ} (t : Fin k → ℚ) (p : Fin k) : Fin k :=
  (argsortList k t).get ⟨p.val, by rw [length_argsortList]; exact p.isLt⟩

/-- Row `p`, column `q` of `diff_matrix`: the scaled, sorted manifold
distances gathered by `sorted_indices`, expanded to
`d_p - d_q + margin`. -/
def diff_matrix {k : ℕ} (t d : Fin k → ℚ) (margin : ℚ) (scale : ℚ → ℚ)
    (p q : Fin k) : ℚ :=
  scale (d (argsort t p)) - scale (d (argsort t q)) + margin

/-- Row `p`, column `q` of `diff_matrix_train`: the sorted ground-truth
distances expanded to `t_p - t_q`. -/
def diff_matrix_train {k : ℕ} (t : Fin k → ℚ) (p q : Fin k) : ℚ :=
  t (argsort t p) - t (argsort t q)

/-- Model of `torch.where(diff_matrix_train == 0, diff_matrix_train, diff_matrix)`:
tie-masked difference matrix. -/
def masked_diff_matrix {k : ℕ} (t d : Fin k → ℚ) (margin : ℚ)
    (scale : ℚ → ℚ) (p q : Fin k) : ℚ :=
  if diff_matrix_train t p q = 0 then diff_matrix_train t p q
  else diff_matrix t d margin scale p q

/-- Model of `.triu()`: keeps entries with row index ≤ column index (main diagonal
included) and zeroes the rest. -/
def triu_masked {k : ℕ} (t d : Fin k → ℚ) (margin : ℚ) (scale : ℚ → ℚ)
    (p q : Fin k) : ℚ :=
  if p ≤ q then masked_diff_matrix t d margin scale p q else 0

/-- The matrix summed by the final reduction: `relu(masked_diff_matrix.triu())`. -/
def lossMatrix {k : ℕ} (t d : Fin k → ℚ) (margin : ℚ) (scale : ℚ → ℚ)
    (p q : Fin k) : ℚ :=
  relu (triu_masked t d margin scale p q)

/-- Model of `graph_manifold_margin_loss` from the point where the per-row manifold
distances `manifold_dists` and ground-truth distances `train_distances` are
available (the embedding lookup and the manifold's `dist` upstream of these
tensors are external inputs here):
`masked_diff_matrix.sum(dim=-1).sum(dim=-1).mean()`. -/
def graph_manifold_margin_loss (b k : ℕ)
    (manifold_dists train_distances : Fin b → Fin k → ℚ)
    (margin : ℚ) (scale : ℚ → ℚ) : ℚ :=
  (∑ r : Fin b, ∑ p : Fin k, ∑ q : Fin k,
    lossMatrix (train_distances r) (manifold_dists r) margin scale p q) / b

end MarginLoss

/-- Claim C5. In the rank-margin loss, after tie-masking only strictly-upper-
triangular entries can contribute: every entry of the reduced matrix with
`q ≤ p` (on or below the diagonal) is exactly zero, every pair whose
difference-matrix entry `d_p - d_q + margin` is non-positive (correctly
ordered with at least the margin gap) contributes exactly zero, and every
entry is non-negative (negative entries are clamped to zero). -/
theorem marginLoss_triu_relu_structure {k : ℕ} (t d : Fin k → ℚ)
    (margin : ℚ) (scale : ℚ → ℚ) (p q : Fin k) :
    (q ≤ p → MarginLoss.lossMatrix t d margin scale p q = 0) ∧
    (MarginLoss.diff_matrix t d margin scale p q ≤ 0 →
      MarginLoss.lossMatrix t d margin scale p q = 0) ∧
    0 ≤ MarginLoss.lossMatrix t d margin scale p q := by
  refine ⟨?_, ?_, ?_⟩
  · intro hqp
    unfold MarginLoss.lossMatrix MarginLoss.triu_masked
    rcases lt_or_eq_of_le hqp with hlt | heq
    · rw [if_neg (not_le.mpr hlt)]
      rfl
    · subst heq
      rw [if_pos le_rfl]
      unfold MarginLoss.masked_diff_matrix MarginLoss.diff_matrix_train
      rw [if_pos (sub_self _)]
      simp [MarginLoss.relu, sub_self]
  · intro hD
    unfold MarginLoss.lossMatrix MarginLoss.triu_masked
      MarginLoss.masked_diff_matrix MarginLoss.relu
    by_cases hpq : p ≤ q
    · rw [if_pos hpq]
      by_cases htie : MarginLoss.diff_matrix_train t p q = 0
      · rw [if_pos htie, htie]
        simp
      · rw [if_neg htie]
        exact max_eq_right hD
    · rw [if_neg hpq]
      simp
  · exact le_max_right _ _

/-- Witness for C5 at `k = 2`, `t = d = 0`, `margin = 0`, identity scale,
`p = 1`, `q = 0`. -/
theorem marginLoss_triu_relu_structure_witness :
    MarginLoss.lossMatrix (fun _ : Fin 2 => (0 : ℚ)) (fun _ => 0) 0 id 1 0 = 0 ∧
    0 ≤ MarginLoss.lossMatrix (fun _ : Fin 2 => (0 : ℚ)) (fun _ => 0) 0 id 1 0 :=
  ⟨(marginLoss_triu_relu_structure (fun _ => 0) (fun _ => 0) 0 id 1 0).1
      (by decide),
   (marginLoss_triu_relu_structure (fun _ => 0) (fun _ => 0) 0 id 1 0).2.2⟩

/-- Claim C6. Two neighbors `j`, `j'` of the same vertex with exactly equal
ground-truth distances contribute exactly zero to the rank-margin loss: the
reduced-matrix entry at the sorted positions `p`, `q` holding `j` and `j'`
is zero, regardless of the manifold distances and of the scale function. -/
theorem marginLoss_ties_contribute_zero {k : ℕ} (t d : Fin k → ℚ)
    (margin : ℚ) (scale : ℚ → ℚ) (j j' p q : Fin k)
    (htie : t j = t j')
    (hp : MarginLoss.argsort t p = j) (hq : MarginLoss.argsort t q = j') :
    MarginLoss.lossMatrix t d margin scale p q = 0 := by
  have htrain : MarginLoss.diff_matrix_train t p q = 0 := by
    unfold MarginLoss.diff_matrix_train
    rw [hp, hq, htie, sub_self]
  unfold MarginLoss.lossMatrix MarginLoss.triu_masked
    MarginLoss.masked_diff_matrix
  by_cases hpq : p ≤ q
  · rw [if_pos hpq, if_pos htrain, htrain]
    rfl
  · rw [if_neg hpq]
    rfl

/-- Witness for C6 at `k = 2`, tied ground truth `t = [5, 5]`,
`d = [3, 7]`. -/
theorem marginLoss_ties_contribute_zero_witness :
    MarginLoss.lossMatrix (fun _ : Fin 2 => (5 : ℚ)) ![3, 7] 1 id 0 1 = 0 :=
  marginLoss_ties_contribute_zero (fun _ => 5) ![3, 7] 1 id 0 1 0 1 rfl
    (by decide) (by decide)

/-- Claim C7. Worked example: batch of 1 vertex with 3 neighbors,
ground-truth distances `[1, 2, 2]`, manifold distances `[0.1, 0.4, 0.05]`,
margin `0.01`, identity scale: the tied pair (1,2) is zeroed, pair (0,1)
contributes `max(0, 0.1 - 0.4 + 0.01) = 0`, pair (0,2) contributes
`max(0, 0.1 - 0.05 + 0.01) = 0.06`, so the loss is `0.06 = 3/50`. -/
theorem marginLoss_worked_example :
    MarginLoss.graph_manifold_margin_loss 1 3
      (fun _ => ![1/10, 2/5, 1/20]) (fun _ => ![1, 2, 2]) (1/100) id =
      3 / 50 := by
  with_unfolding_all decide

/-- Claim C10. For every well-shaped batch (at least one vertex row), the
rank-margin loss is non-negative: after the relu clamp every summand of the
reduction is ≥ 0, so the summed-then-averaged loss is ≥ 0. -/
theorem marginLoss_nonneg (b k : ℕ)
    (manifold_dists train_distances : Fin b → Fin k → ℚ)
    (margin : ℚ) (scale : ℚ → ℚ) (hb : 0 < b) :
    0 ≤ MarginLoss.graph_manifold_margin_loss b k
          manifold_dists train_distances margin scale := by
  unfold MarginLoss.graph_manifold_margin_loss
  apply div_nonneg
  · refine Finset.sum_nonneg fun r _ => ?_
    refine Finset.sum_nonneg fun p _ => ?_
    refine Finset.sum_nonneg fun q _ => ?_
    exact le_max_right _ _
  · exact_mod_cast Nat.zero_le b

/-- Witness for C10 at a singleton batch. -/
theorem marginLoss_nonneg_witness :
    0 ≤ MarginLoss.graph_manifold_margin_loss 1 1
          (fun _ _ => (0 : ℚ)) (fun _ _ => 0) 0 id :=
  marginLoss_nonneg 1 1 (fun _ _ => 0) (fun _ _ => 0) 0 id (by decide)

namespace MarginLoss

/-- IEEE-style value domain for the NaN/Inf filtering stage of the loss:
a float is either a finite (exact) value, `+inf`, `-inf`, or `NaN`.  The
exact ℚ pipeline above cannot produce non-finite values, but the scale
function of the source may (e.g. `log 0 = -inf`), so lines 79–83 of
`graph_manifold_margin_loss` are modelled over this domain. -/
inductive FVal where
  | fin : ℚ → FVal
  | inf : FVal
  | ninf : FVal
  | nan : FVal
deriving DecidableEq

namespace FVal

/-- Model of `torch.isnan` on one element. -/
def isNan : FVal → Bool
  | nan => true
  | _ => false

/-- Model of `torch.isinf` on one element (true for both infinities). -/
def isInf : FVal → Bool
  | inf => true
  | ninf => true
  | _ => false

/-- IEEE addition on the extended domain. -/
def add : FVal → FVal → FVal
  | nan, _ => nan
  | _, nan => nan
  | inf, ninf => nan
  | ninf, inf => nan
  | inf, _ => inf
  | _, inf => inf
  | ninf, _ => ninf
  | _, ninf => ninf
  | fin a, fin b => fin (a + b)

/-- Division of a reduction result by an element count (`.mean()`); the
mean of an empty tensor is `0 / 0 = NaN`. -/
def divNat : FVal → ℕ → FVal
  | _, 0 => nan
  | fin a, b => fin (a / b)
  | inf, _ => inf
  | ninf, _ => ninf
  | nan, _ => nan

end FVal

/-- Model of `masked_diff_matrix[torch.isnan(masked_diff_matrix)] = 0`. -/
def zeroNan (x : FVal) : FVal := if x.isNan then FVal.fin 0 else x

/-- Model of `masked_diff_matrix[torch.isinf(masked_diff_matrix)] = 0`. -/
def zeroInf (x : FVal) : FVal := if x.isInf then FVal.fin 0 else x

/-- Model of `torch.isnan(masked_diff_matrix).any()`: the condition guarding the
`logger.warning("Masked differences are NaN")` diagnostic. -/
def hasNan (b k : ℕ) (M : Fin b → Fin k → Fin k → FVal) : Bool :=
  decide (∃ r p q, (M r p q).isNan = true)

/-- Sum of a list of extended values, used for `.sum(dim=-1)`. -/
def sumF (l : List FVal) : FVal := l.foldr FVal.add (FVal.fin 0)

/-- Model of `M.sum(dim=-1).sum(dim=-1)` summed over the batch dimension (the
numerator of `.mean()`). -/
def matrixSum (b k : ℕ) (M : Fin b → Fin k → Fin k → FVal) : FVal :=
  sumF ((List.finRange b).map fun r =>
    sumF ((List.finRange k).map fun p =>
      sumF ((List.finRange k).map fun q => M r p q)))

/-- Lines 79–84 of `graph_manifold_margin_loss`: given the batched
`masked_diff_matrix` (possibly containing NaN/Inf), emit the NaN warning
flag, zero all NaN then all Inf entries, and reduce by
`.sum(dim=-1).sum(dim=-1).mean()`. -/
def filterAndReduce (b k : ℕ) (M : Fin b → Fin k → Fin k → FVal) :
    Bool × FVal :=
  (hasNan b k M,
   FVal.divNat (matrixSum b k fun r p q => zeroInf (zeroNan (M r p q))) b)

lemma zeroed_isFin (x : FVal) : ∃ c : ℚ, zeroInf (zeroNan x) = FVal.fin c := by
  cases x with
  | fin q => exact ⟨q, rfl⟩
  | inf => exact ⟨0, rfl⟩
  | ninf => exact ⟨0, rfl⟩
  | nan => exact ⟨0, rfl⟩

lemma sumF_isFin (l : List FVal) (h : ∀ x ∈ l, ∃ c : ℚ, x = FVal.fin c) :
    ∃ c : ℚ, sumF l = FVal.fin c := by
  induction l with
  | nil => exact ⟨0, rfl⟩
  | cons x xs ih =>
      obtain ⟨c, hc⟩ := h x (List.mem_cons_self x xs)
      obtain ⟨s, hs⟩ := ih fun y hy => h y (List.mem_cons_of_mem x hy)
      refine ⟨c + s, ?_⟩
      simp only [sumF, List.foldr_cons] at hs ⊢
      rw [hc, hs]
      rfl

end MarginLoss

/-- Claim C8. In the rank-margin loss, every NaN or infinite entry of the
masked difference matrix is replaced by zero before the final reduction,
the diagnostic-warning condition fires whenever a NaN entry is present,
and (for a non-empty batch) the returned loss is a finite value, never
NaN. -/
theorem marginLoss_nan_inf_filtering (b k : ℕ)
    (M : Fin b → Fin k → Fin k → MarginLoss.FVal) (hb : 0 < b) :
    (∀ r p q, MarginLoss.zeroInf (MarginLoss.zeroNan (M r p q)) =
      if (M r p q).isNan || (M r p q).isInf then MarginLoss.FVal.fin 0
      else M r p q) ∧
    ((∃ r p q, (M r p q).isNan = true) →
      (MarginLoss.filterAndReduce b k M).1 = true) ∧
    (∃ c : ℚ, (MarginLoss.filterAndReduce b k M).2 = MarginLoss.FVal.fin c) := by
  refine ⟨?_, ?_, ?_⟩
  · intro r p q
    cases M r p q with
    | fin q' => rfl
    | inf => rfl
    | ninf => rfl
    | nan => rfl
  · intro hex
    exact decide_eq_true hex
  · have hfin : ∃ c : ℚ, MarginLoss.matrixSum b k
        (fun r p q => MarginLoss.zeroInf (MarginLoss.zeroNan (M r p q))) =
          MarginLoss.FVal.fin c := by
      apply MarginLoss.sumF_isFin
      intro x hx
      simp only [List.mem_map] at hx
      obtain ⟨r, _, hr⟩ := hx
      subst hr
      apply MarginLoss.sumF_isFin
      intro y hy
      simp only [List.mem_map] at hy
      obtain ⟨p, _, hp⟩ := hy
      subst hp
      apply MarginLoss.sumF_isFin
      intro z hz
      simp only [List.mem_map] at hz
      obtain ⟨q, _, hq⟩ := hz
      subst hq
      exact MarginLoss.zeroed_isFin _
    obtain ⟨c, hc⟩ := hfin
    refine ⟨c / b, ?_⟩
    simp only [MarginLoss.filterAndReduce]
    rw [hc]
    cases b with
    | zero => exact absurd hb (by simp)
    | succ b' => rfl

/-- Witness for C8: a 1×1×1 masked matrix holding a single NaN. -/
theorem marginLoss_nan_inf_filtering_witness :
    (MarginLoss.filterAndReduce 1 1 (fun _ _ _ => MarginLoss.FVal.nan)).1 =
      true ∧
    (∃ c : ℚ, (MarginLoss.filterAndReduce 1 1
      (fun _ _ _ => MarginLoss.FVal.nan)).2 = MarginLoss.FVal.fin c) :=
  ⟨(marginLoss_nan_inf_filtering 1 1 (fun _ _ _ => MarginLoss.FVal.nan)
      (by decide)).2.1 ⟨0, 0, 0, rfl⟩,
   (marginLoss_nan_inf_filtering 1 1 (fun _ _ _ => MarginLoss.FVal.nan)
      (by decide)).2.2⟩

namespace GraphUtils

/-- Model of `torch.nn.functional.relu` as imported in `graph_embedding_utils.py`. -/
def relu (q : ℚ) : ℚ := max q 0

/-- Contract of `torch.symeig(M, eigenvectors=True) = (e, V)`, an external
eigendecomposition kernel; a valid output is an orthogonal `V` and
eigenvalue vector `e` with `M = V · diag(e) · Vᵀ`.  This relation is the
contract under which the utilities below receive their inputs. -/
def IsSymeig {α : Type} [CommRing α] {n : ℕ}
    (M V : Matrix (Fin n) (Fin n) α) (e : Fin n → α) : Prop :=
  V * V.transpose = 1 ∧ M = V * Matrix.diagonal e * V.transpose

/-- Model of `closest_pd_matrix`, expressed on the eigendecomposition `(e, V)` that
`torch.symeig` returns for the input matrix: clamp the eigenvalues with
`relu`, reconstruct `V · diag(relu e) · Vᵀ`
(`torch.bmm(torch.bmm(vectors, diag_vals), vectors.transpose(-1, -2))`),
and add the offset `1e-3 · I` when the clamped minimum is below `1e-3`
(`eigenvalues.min() < 1e-3` on a non-empty spectrum is `∃ i, ... < 1e-3`). -/
def closest_pd_matrix {n : ℕ} (V : Matrix (Fin n) (Fin n) ℚ)
    (e : Fin n → ℚ) : Matrix (Fin n) (Fin n) ℚ :=
  if ∃ i, relu (e i) < 1/1000 then
    V * Matrix.diagonal (fun i => relu (e i)) * V.transpose +
      ((1:ℚ)/1000) • 1
  else
    V * Matrix.diagonal (fun i => relu (e i)) * V.transpose

lemma nearest_psd_posSemidef {n : ℕ} (V : Matrix (Fin n) (Fin n) ℚ)
    (e : Fin n → ℚ) :
    (V * Matrix.diagonal (fun i => relu (e i)) * V.transpose).PosSemidef := by
  have hD : (Matrix.diagonal (fun i => relu (e i))).PosSemidef :=
    Matrix.posSemidef_diagonal_iff.mpr fun i => le_max_right _ _
  exact hD.mul_mul_conjTranspose_same V

lemma offset_posSemidef (n : ℕ) :
    (((1:ℚ)/1000) • (1 : Matrix (Fin n) (Fin n) ℚ)).PosSemidef := by
  have h : ((1:ℚ)/1000) • (1 : Matrix (Fin n) (Fin n) ℚ) =
      Matrix.diagonal (fun _ => (1:ℚ)/1000) := by
    rw [Matrix.smul_one_eq_diagonal]
  rw [h]
  exact Matrix.posSemidef_diagonal_iff.mpr fun i => by norm_num

end GraphUtils

/-- Claim C2 (amended). For any symmetric input `M` presented through a valid
eigendecomposition `(e, V)`, `closest_pd_matrix` returns a symmetric
positive-semidefinite matrix (all eigenvalues ≥ 0), and returns the input
unchanged whenever every eigenvalue of the input is at least `1e-3`.  (An
input that is PSD but has an eigenvalue below `1e-3` instead receives the
`1e-3 · I` offset; see the counterexample.) -/
theorem closest_pd_matrix_symm_psd {n : ℕ}
    (M V : Matrix (Fin n) (Fin n) ℚ) (e : Fin n → ℚ)
    (h : GraphUtils.IsSymeig M V e) :
    (GraphUtils.closest_pd_matrix V e).transpose =
      GraphUtils.closest_pd_matrix V e ∧
    (GraphUtils.closest_pd_matrix V e).PosSemidef ∧
    ((∀ i, 1/1000 ≤ e i) → GraphUtils.closest_pd_matrix V e = M) := by
  have hpsd : (GraphUtils.closest_pd_matrix V e).PosSemidef := by
    unfold GraphUtils.closest_pd_matrix
    by_cases hc : ∃ i, GraphUtils.relu (e i) < 1/1000
    · rw [if_pos hc]
      exact (GraphUtils.nearest_psd_posSemidef V e).add
        (GraphUtils.offset_posSemidef n)
    · rw [if_neg hc]
      exact GraphUtils.nearest_psd_posSemidef V e
  refine ⟨hpsd.1, hpsd, ?_⟩
  intro hfloor
  have hrelu : (fun i => GraphUtils.relu (e i)) = e :=
    funext fun i => max_eq_left (le_trans (by norm_num) (hfloor i))
  have hc : ¬ ∃ i, GraphUtils.relu (e i) < 1/1000 := by
    rintro ⟨i, hi⟩
    have := hfloor i
    have heq : GraphUtils.relu (e i) = e i := congrFun hrelu i
    rw [heq] at hi
    linarith
  unfold GraphUtils.closest_pd_matrix
  rw [if_neg hc, hrelu, ← h.2]

/-- Witness for C2 at `n = 1`, `V = I`, `e = (1)` (input `M = I`). -/
theorem closest_pd_matrix_symm_psd_witness :
    GraphUtils.closest_pd_matrix (1 : Matrix (Fin 1) (Fin 1) ℚ)
      (fun _ => 1) = 1 :=
  (closest_pd_matrix_symm_psd 1 1 (fun _ => 1)
      ⟨by simp, by simp⟩).2.2 fun i => by norm_num

/-- Claim C2 counterexample. The zero matrix (`n = 1`) is symmetric and
positive semidefinite — it is `V · diag(0) · Vᵀ` for the orthogonal
`V = I` — yet `closest_pd_matrix` does not return it unchanged: the zero
eigenvalue is below `1e-3`, so the `1e-3 · I` offset is added. -/
theorem closest_pd_matrix_not_identity_on_psd :
    GraphUtils.IsSymeig (0 : Matrix (Fin 1) (Fin 1) ℚ) 1 (fun _ => 0) ∧
    (0 : Matrix (Fin 1) (Fin 1) ℚ).PosSemidef ∧
    GraphUtils.closest_pd_matrix (1 : Matrix (Fin 1) (Fin 1) ℚ)
      (fun _ => 0) ≠ 0 := by
  refine ⟨⟨by simp, by simp⟩, ⟨by simp [Matrix.IsHermitian], fun x => by simp⟩, ?_⟩
  with_unfolding_all decide

namespace GraphUtils

/-- Model of `.norm(dim=-1)`: Euclidean norm of a vector of reals. -/
noncomputable def vecNorm {n : ℕ} (v : Fin n → ℝ) : ℝ :=
  Real.sqrt (∑ i, v i ^ 2)

/-- Model of `torch.bmm(torch.inverse(matrix_a), matrix_b)` for one batch element. -/
noncomputable def ainvb {n : ℕ} (A B : Matrix (Fin n) (Fin n) ℝ) :
    Matrix (Fin n) (Fin n) ℝ :=
  A⁻¹ * B

/-- The value `riemannian_divergence` computes from the eigenvalues `e`
that `torch.symeig` reports for `ainvb A B`: clamp each eigenvalue to at
least `1e-5`, take logarithms, and square the norm of the result
(`log_eig.norm(dim=-1) ** 2`). -/
noncomputable def riemannian_divergence {n : ℕ} (e : Fin n → ℝ) : ℝ :=
  vecNorm (fun i => Real.log (max (e i) (1/100000))) ^ 2

/-- The per-sample divergence as the claim words it: "the norm of the
vector of log-eigenvalues" (no square). -/
noncomputable def riemannian_divergence_claimed {n : ℕ} (e : Fin n → ℝ) : ℝ :=
  vecNorm (fun i => Real.log (max (e i) (1/100000)))

end GraphUtils

/-- Claim C4 counterexample. At `A = I`, `B = 0` (1×1 batch element) the
product `A⁻¹·B = 0` has eigendecomposition `V = I`, `e = (0)`; the clamped
log-eigenvalue is `log 1e-5`, whose norm is `log 100000 > 1`, so the value
the code returns (the squared norm) differs from the norm the claim
describes. -/
theorem riemannian_divergence_not_norm :
    GraphUtils.IsSymeig
      (GraphUtils.ainvb (1 : Matrix (Fin 1) (Fin 1) ℝ) 0) 1 (fun _ => 0) ∧
    GraphUtils.riemannian_divergence (fun _ : Fin 1 => (0:ℝ)) ≠
      GraphUtils.riemannian_divergence_claimed (fun _ : Fin 1 => (0:ℝ)) := by
  constructor
  · exact ⟨by simp, by simp [GraphUtils.ainvb]⟩
  · have hmax : max (0:ℝ) (1/100000) = 1/100000 := max_eq_right (by norm_num)
    have hlog : Real.log ((1:ℝ)/100000) = -Real.log 100000 := by
      rw [one_div, Real.log_inv]
    have hnorm : GraphUtils.vecNorm
        (fun i : Fin 1 => Real.log (max ((0:ℝ)) (1/100000))) =
          Real.log 100000 := by
      unfold GraphUtils.vecNorm
      rw [Fin.sum_univ_one, hmax, hlog, Real.sqrt_sq_eq_abs, abs_neg,
        abs_of_nonneg (Real.log_nonneg (by norm_num))]
    have hgt : 1 < Real.log 100000 := by
      rw [Real.lt_log_iff_exp_lt (by norm_num)]
      calc Real.exp 1 < 2.7182818286 := Real.exp_one_lt_d9
        _ < 100000 := by norm_num
    unfold GraphUtils.riemannian_divergence GraphUtils.riemannian_divergence_claimed
    rw [hnorm]
    have hne : Real.log 100000 < Real.log 100000 ^ 2 := by nlinarith
    exact ne_of_gt hne

/-- Claim C4 (amended). `riemannian_divergence(A, B)` inverts `A`, multiplies
by `B`, eigendecomposes the product, clamps the eigenvalues to at least
`1e-5`, takes logarithms, and returns the **squared** norm of the vector of
log-eigenvalues — equivalently the sum of their squares — as the
per-sample divergence. -/
theorem riemannian_divergence_squared_norm {n : ℕ}
    (A B V : Matrix (Fin n) (Fin n) ℝ) (e : Fin n → ℝ)
    (h : GraphUtils.IsSymeig (GraphUtils.ainvb A B) V e) :
    GraphUtils.riemannian_divergence e =
      ∑ i, Real.log (max (e i) (1/100000)) ^ 2 ∧
    GraphUtils.riemannian_divergence e =
      GraphUtils.riemannian_divergence_claimed e ^ 2 := by
  constructor
  · unfold GraphUtils.riemannian_divergence GraphUtils.vecNorm
    rw [Real.sq_sqrt (Finset.sum_nonneg fun i _ => sq_nonneg _)]
  · rfl

/-- Witness for C4 (amended) at `A = I`, `B = 0`, `V = I`, `e = (0)`. -/
theorem riemannian_divergence_squared_norm_witness :
    GraphUtils.riemannian_divergence (fun _ : Fin 1 => (0:ℝ)) =
      ∑ i : Fin 1, Real.log (max ((0:ℝ)) (1/100000)) ^ 2 :=
  (riemannian_divergence_squared_norm (1 : Matrix (Fin 1) (Fin 1) ℝ) 0 1
      (fun _ => 0) ⟨by simp, by simp [GraphUtils.ainvb]⟩).1

namespace Sphere

/-- Model of `(x * y).sum(-1)`: inner product of two ambient vectors. -/
noncomputable def dot {n : ℕ} (x y : Fin n → ℝ) : ℝ := ∑ i, x i * y i

/-- Model of `.norm(dim=-1)`: Euclidean norm of an ambient vector. -/
noncomputable def norm2 {n : ℕ} (x : Fin n → ℝ) : ℝ := Real.sqrt (dot x x)

namespace SphericalManifold

/-- Model of `SphericalManifold.proj(x, indices)`.  With `indices=None` the method
returns `x / x.norm(dim=-1, keepdim=True)`.  With a non-`None` index set it
computes `x_proj = x.clone()` and normalizes the indexed rows of the clone,
but the branch has no `return` statement, so the Python function returns
`None`; the `some`-branch therefore produces `none` here. -/
noncomputable def proj {b n : ℕ} (x : Fin b → Fin n → ℝ)
    (indices : Option (Finset (Fin b))) : Option (Fin b → Fin n → ℝ) :=
  match indices with
  | some _ => none
  | none => some fun i j => x i j / norm2 (x i)

/-- Model of `SphericalManifold.proj_(x, indices)`: in place, the indexed rows (all
rows when `indices=None`) are divided by their norms, and the updated
tensor is returned. -/
noncomputable def proj_ {b n : ℕ} (x : Fin b → Fin n → ℝ)
    (indices : Option (Finset (Fin b))) : Fin b → Fin n → ℝ :=
  match indices with
  | some s => fun i j => if i ∈ s then x i j / norm2 (x i) else x i j
  | none => fun i j => x i j / norm2 (x i)

end SphericalManifold

end Sphere

/-- Claim C3 (code bug). `proj` with a non-`None` index subset falls off the
end of the branch without returning `x_proj`, so it returns `None` rather
than the projected batch: here, on the single-row batch `[[3, 4]]` with
index set `{0}`, `proj` yields `none` while the in-place variant `proj_`
(whose value semantics the claim says `proj` shares) correctly maps the
indexed row to its unit-norm projection `[3/5, 4/5]`. -/
theorem sphericalProj_missing_return :
    Sphere.SphericalManifold.proj (fun _ : Fin 1 => ![(3:ℝ), 4]) (some {0}) =
      none ∧
    Sphere.SphericalManifold.proj_ (fun _ : Fin 1 => ![(3:ℝ), 4]) (some {0}) 0 =
      ![3/5, 4/5] := by
  constructor
  · rfl
  · have hnorm : Sphere.norm2 ![(3:ℝ), 4] = 5 := by
      unfold Sphere.norm2 Sphere.dot
      rw [Fin.sum_univ_two]
      norm_num
      rw [show (25:ℝ) = 5 ^ 2 by norm_num, Real.sqrt_sq (by norm_num : (0:ℝ) ≤ 5)]
    funext j
    show (if (0 : Fin 1) ∈ ({0} : Finset (Fin 1)) then
        (fun _ : Fin 1 => ![(3:ℝ), 4]) 0 j / Sphere.norm2 ((fun _ => ![(3:ℝ), 4]) 0)
      else (fun _ : Fin 1 => ![(3:ℝ), 4]) 0 j) = ![3/5, 4/5] j
    rw [if_pos (Finset.mem_singleton_self 0)]
    simp only [hnorm]
    fin_cases j <;> norm_num

namespace Sphere

namespace SphericalManifold

/-- Model of `SphericalManifold.dist(x, y)`: clamp the inner product to `[-1, 1]`
and apply the stable `acos` (whose forward pass clamps again). -/
noncomputable def dist {n : ℕ} (x y : Fin n → ℝ) : ℝ :=
  GradClippedACos.forward (clampR (-1) 1 (dot x y))

/-- The tangent vector `u` built inside `SphericalManifold.log`:
`u = y - x` followed by `u -= (x*u).sum(-1) * x`. -/
noncomputable def logTangent {n : ℕ} (x y : Fin n → ℝ) : Fin n → ℝ :=
  fun i => (y i - x i) - dot x (fun j => y j - x j) * x i

/-- Model of `SphericalManifold.log(x, y)`: rescale the tangent `u` to have length
`dist(x, y)` when `u.norm() > EPSILON`, otherwise return `u` itself
(`torch.where(cond, u * dist / norm_u, u)`). -/
noncomputable def log {n : ℕ} (x y : Fin n → ℝ) : Fin n → ℝ :=
  if EPSILON < norm2 (logTangent x y) then
    fun i => logTangent x y i * dist x y / norm2 (logTangent x y)
  else logTangent x y

/-- Model of `SphericalManifold.exp(x, u)`: the geodesic formula
`x * cos ‖u‖ + u * sin ‖u‖ / ‖u‖` when `‖u‖ > EPSILON`, otherwise the
retraction `proj(x + u) = (x + u) / ‖x + u‖`
(`torch.where(cond, exp, retr)`). -/
noncomputable def exp {n : ℕ} (x u : Fin n → ℝ) : Fin n → ℝ :=
  if EPSILON < norm2 u then
    fun i => x i * Real.cos (norm2 u) + u i * Real.sin (norm2 u) / norm2 u
  else
    fun i => (x i + u i) / norm2 (fun j => x j + u j)

end SphericalManifold

lemma dot_self_nonneg {n : ℕ} (x : Fin n → ℝ) : 0 ≤ dot x x :=
  Finset.sum_nonneg fun i _ => mul_self_nonneg _

lemma clampR_eq_of_mem {lo hi x : ℝ} (h1 : lo ≤ x) (h2 : x ≤ hi) :
    clampR lo hi x = x := by
  unfold clampR
  rw [min_eq_right h2, max_eq_right h1]

lemma dot_sub_comb {n : ℕ} (x y : Fin n → ℝ) (c : ℝ) :
    dot (fun i => y i - c * x i) (fun i => y i - c * x i) =
      dot y y - 2 * c * dot x y + c ^ 2 * dot x x := by
  unfold dot
  have h : ∀ i, (y i - c * x i) * (y i - c * x i) =
      y i * y i - 2 * c * (x i * y i) + c ^ 2 * (x i * x i) := fun i => by ring
  simp_rw [h]
  rw [Finset.sum_add_distrib, Finset.sum_sub_distrib,
    ← Finset.mul_sum, ← Finset.mul_sum]

lemma dot_scale {n : ℕ} (u : Fin n → ℝ) (c : ℝ) :
    dot (fun i => u i * c) (fun i => u i * c) = c ^ 2 * dot u u := by
  unfold dot
  have h : ∀ i, u i * c * (u i * c) = c ^ 2 * (u i * u i) := fun i => by ring
  simp_rw [h]
  rw [← Finset.mul_sum]

lemma norm2_scale {n : ℕ} (u : Fin n → ℝ) (c : ℝ) :
    norm2 (fun i => u i * c) = |c| * norm2 u := by
  unfold norm2
  rw [dot_scale, Real.sqrt_mul (sq_nonneg c), Real.sqrt_sq_eq_abs]

lemma dot_sub_right {n : ℕ} (x y : Fin n → ℝ) :
    dot x (fun j => y j - x j) = dot x y - dot x x := by
  unfold dot
  simp_rw [mul_sub]
  rw [Finset.sum_sub_distrib]

lemma EPSILON_pos : (0 : ℝ) < EPSILON := by norm_num [EPSILON]

end Sphere

/-- Claim C9. For unit vectors `x`, `y`, the spherical distance lies in
`[0, π]`; and whenever the tangent `u = y - ⟨x,y⟩x` computed by `log` has
norm above the `EPSILON` guard (in particular `x` is not within the
degenerate band around the antipode of `y`), the round-trip law holds
exactly: `exp(x, log(x, y)) = y`. -/
theorem sphereDist_range_and_expLog_roundtrip {n : ℕ} (x y : Fin n → ℝ)
    (hx : Sphere.dot x x = 1) (hy : Sphere.dot y y = 1) :
    (0 ≤ Sphere.SphericalManifold.dist x y ∧
      Sphere.SphericalManifold.dist x y ≤ Real.pi) ∧
    (Sphere.EPSILON < Sphere.norm2 (Sphere.SphericalManifold.logTangent x y) →
      Sphere.SphericalManifold.exp x (Sphere.SphericalManifold.log x y) = y) := by
  constructor
  · unfold Sphere.SphericalManifold.dist Sphere.GradClippedACos.forward
    exact ⟨Real.arccos_nonneg _, Real.arccos_le_pi _⟩
  intro hu
  -- Cauchy–Schwarz: the inner product of unit vectors lies in [-1, 1].
  have hxx : ∑ i, x i ^ 2 = 1 := by
    have : ∑ i, x i ^ 2 = Sphere.dot x x := by
      unfold Sphere.dot; simp_rw [pow_two]
    rw [this, hx]
  have hyy : ∑ i, y i ^ 2 = 1 := by
    have : ∑ i, y i ^ 2 = Sphere.dot y y := by
      unfold Sphere.dot; simp_rw [pow_two]
    rw [this, hy]
  have hcs : Sphere.dot x y ^ 2 ≤ 1 := by
    have h := Finset.sum_mul_sq_le_sq_mul_sq Finset.univ x y
    rw [hxx, hyy] at h
    simpa [Sphere.dot] using h
  have hd1 : -1 ≤ Sphere.dot x y := by nlinarith [sq_nonneg (Sphere.dot x y + 1)]
  have hd2 : Sphere.dot x y ≤ 1 := by nlinarith [sq_nonneg (Sphere.dot x y - 1)]
  have hclamp : Sphere.clampR (-1) 1 (Sphere.dot x y) = Sphere.dot x y :=
    Sphere.clampR_eq_of_mem hd1 hd2
  have hdist : Sphere.SphericalManifold.dist x y =
      Real.arccos (Sphere.dot x y) := by
    unfold Sphere.SphericalManifold.dist Sphere.GradClippedACos.forward
    rw [hclamp, hclamp]
  -- The tangent vector is y - ⟨x,y⟩·x.
  have hueq : Sphere.SphericalManifold.logTangent x y =
      fun i => y i - Sphere.dot x y * x i := by
    funext i
    unfold Sphere.SphericalManifold.logTangent
    rw [Sphere.dot_sub_right, hx]
    ring
  have hueqP : ∀ i, Sphere.SphericalManifold.logTangent x y i =
      y i - Sphere.dot x y * x i := fun i => congrFun hueq i
  have huu : Sphere.dot (Sphere.SphericalManifold.logTangent x y)
      (Sphere.SphericalManifold.logTangent x y) = 1 - Sphere.dot x y ^ 2 := by
    rw [hueq, Sphere.dot_sub_comb, hx, hy]
    ring
  have hnu_sqrt : Sphere.norm2 (Sphere.SphericalManifold.logTangent x y) =
      Real.sqrt (1 - Sphere.dot x y ^ 2) := by
    unfold Sphere.norm2
    rw [huu]
  have hsinθ : Real.sin (Real.arccos (Sphere.dot x y)) =
      Sphere.norm2 (Sphere.SphericalManifold.logTangent x y) := by
    rw [Real.sin_arccos, hnu_sqrt]
  have hθ0 : 0 ≤ Real.arccos (Sphere.dot x y) := Real.arccos_nonneg _
  have hnu_pos : 0 < Sphere.norm2 (Sphere.SphericalManifold.logTangent x y) :=
    lt_trans Sphere.EPSILON_pos hu
  have hθ_ge : Sphere.norm2 (Sphere.SphericalManifold.logTangent x y) ≤
      Real.arccos (Sphere.dot x y) := by
    have h := Real.sin_le hθ0
    rw [hsinθ] at h
    exact h
  have hθ_eps : Sphere.EPSILON < Real.arccos (Sphere.dot x y) :=
    lt_of_lt_of_le hu hθ_ge
  have hθ_pos : 0 < Real.arccos (Sphere.dot x y) :=
    lt_trans Sphere.EPSILON_pos hθ_eps
  -- log takes the exact branch.
  have hlog : Sphere.SphericalManifold.log x y =
      fun i => Sphere.SphericalManifold.logTangent x y i *
        Sphere.SphericalManifold.dist x y /
          Sphere.norm2 (Sphere.SphericalManifold.logTangent x y) := by
    unfold Sphere.SphericalManifold.log
    rw [if_pos hu]
  have hv : (fun i => Sphere.SphericalManifold.logTangent x y i *
      Sphere.SphericalManifold.dist x y /
        Sphere.norm2 (Sphere.SphericalManifold.logTangent x y)) =
      fun i => Sphere.SphericalManifold.logTangent x y i *
        (Real.arccos (Sphere.dot x y) /
          Sphere.norm2 (Sphere.SphericalManifold.logTangent x y)) := by
    funext i
    rw [hdist, mul_div_assoc]
  -- The rescaled tangent has norm exactly arccos ⟨x, y⟩.
  have hnv : Sphere.norm2 (fun i => Sphere.SphericalManifold.logTangent x y i *
      (Real.arccos (Sphere.dot x y) /
        Sphere.norm2 (Sphere.SphericalManifold.logTangent x y))) =
      Real.arccos (Sphere.dot x y) := by
    rw [Sphere.norm2_scale,
      abs_of_nonneg (div_nonneg hθ0 (le_of_lt hnu_pos)),
      div_mul_cancel₀ _ (ne_of_gt hnu_pos)]
  rw [hlog, hv]
  unfold Sphere.SphericalManifold.exp
  rw [hnv, if_pos hθ_eps]
  funext i
  beta_reduce
  rw [Real.cos_arccos hd1 hd2, hsinθ, hueqP i]
  have hnu0 : Sphere.norm2 (Sphere.SphericalManifold.logTangent x y) ≠ 0 :=
    ne_of_gt hnu_pos
  have hθ0' : Real.arccos (Sphere.dot x y) ≠ 0 := ne_of_gt hθ_pos
  field_simp
  ring

/-- Witness for C9 at the unit vectors `x = (1,0)`, `y = (0,1)`: the
distance is within `[0, π]` and the round trip reproduces `y` exactly. -/
theorem sphereDist_range_and_expLog_roundtrip_witness :
    Sphere.SphericalManifold.dist ![(1:ℝ), 0] ![(0:ℝ), 1] ≤ Real.pi ∧
    Sphere.SphericalManifold.exp ![(1:ℝ), 0]
      (Sphere.SphericalManifold.log ![(1:ℝ), 0] ![(0:ℝ), 1]) = ![(0:ℝ), 1] := by
  have hx : Sphere.dot ![(1:ℝ), 0] ![(1:ℝ), 0] = 1 := by
    unfold Sphere.dot
    rw [Fin.sum_univ_two]
    norm_num
  have hy : Sphere.dot ![(0:ℝ), 1] ![(0:ℝ), 1] = 1 := by
    unfold Sphere.dot
    rw [Fin.sum_univ_two]
    norm_num
  have hU : Sphere.SphericalManifold.logTangent ![(1:ℝ), 0] ![(0:ℝ), 1] =
      ![(0:ℝ), 1] := by
    funext i
    unfold Sphere.SphericalManifold.logTangent Sphere.dot
    rw [Fin.sum_univ_two]
    fin_cases i <;> norm_num
  have hu : Sphere.EPSILON <
      Sphere.norm2 (Sphere.SphericalManifold.logTangent ![(1:ℝ), 0] ![(0:ℝ), 1]) := by
    rw [hU]
    unfold Sphere.norm2 Sphere.dot
    rw [Fin.sum_univ_two]
    norm_num [Sphere.EPSILON]
  have h := sphereDist_range_and_expLog_roundtrip ![(1:ℝ), 0] ![(0:ℝ), 1] hx hy
  exact ⟨h.1.2, h.2 hu⟩
